import Mathlib

/-!
Shallow embedding of the PassGen 98 generation core (src/javascript/main.js):
the rejection-sampling integer generator `secureRandInt`, the Fisher-Yates
`secureShuffle`, the pool construction and filtering, the password assembly of
`generatePassword`, and the `calcEntropy` estimate.

The browser CSPRNG (`crypto.getRandomValues` filling one `Uint32Array` word per
call) is modelled as an infinite stream of natural numbers together with a
cursor: each draw reads `s pos % 2^32` and advances the cursor.  The `do/while`
rejection loop and the mask-growing `while` loop are modelled with explicit
fuel; running out of fuel (`GenErr.outOfFuel`) models non-termination of the
corresponding JavaScript loop.  JavaScript 32-bit signed shift semantics of
`(mask << 1) | 1` are modelled by `toInt32`.
-/

deriving instance DecidableEq for Except

namespace PassGen

/-- One raw 32-bit word per index; the entropy source of the program. -/
abbrev RandStream : Type := Nat → Nat

/-- Failure modes: `rangeError` is the thrown `RangeError` of `secureRandInt`;
`noPool` and `emptyAfterFilter` are the two status-message early returns of
`generatePassword`; `outOfFuel` models a loop that does not terminate. -/
inductive GenErr : Type where
  | rangeError : GenErr
  | outOfFuel : GenErr
  | noPool : GenErr
  | emptyAfterFilter : GenErr
  deriving DecidableEq

/-- JavaScript ToInt32: wrap an integer into the signed 32-bit range. -/
def toInt32 (n : ℤ) : ℤ :=
  if n % 4294967296 < 2147483648 then n % 4294967296 else n % 4294967296 - 4294967296

/-- The mask-growing loop of `secureRandInt`:
`let mask = 1; while (mask < max) mask = (mask << 1) | 1;`
with JavaScript 32-bit semantics for the shift.  Fuel 32 suffices for every
terminating run; `none` models divergence of the `while` loop. -/
def maskLoop (mx : ℤ) : ℤ → ℕ → Option ℤ
  | mask, 0 => if mask < mx then none else some mask
  | mask, fuel + 1 =>
    if mask < mx then maskLoop mx (toInt32 (2 * mask + 1)) fuel else some mask

/-- The bitmask computed by `secureRandInt` before its acceptance loop. -/
def computeMask (mx : ℤ) : Option ℤ := maskLoop mx 1 32

/-- The `do { crypto.getRandomValues(buf); val = buf[0] & mask; } while (val >= max)`
rejection loop: each iteration consumes one word of the stream. -/
def rejectLoop (mx mask : ℤ) (s : RandStream) : ℕ → ℕ → Except GenErr (ℕ × ℕ)
  | _, 0 => Except.error GenErr.outOfFuel
  | pos, fuel + 1 =>
    if ((s pos % 4294967296 &&& mask.toNat : ℕ) : ℤ) < mx then
      Except.ok (s pos % 4294967296 &&& mask.toNat, pos + 1)
    else
      rejectLoop mx mask s (pos + 1) fuel

/-- The sampler `secureRandInt(max)`: throws a `RangeError` when `max <= 0`, otherwise
computes the bitmask and rejection-samples an integer in `[0, max)`.
Returns the sampled value together with the advanced stream cursor. -/
def secureRandInt (mx : ℤ) (s : RandStream) (pos fuel : ℕ) : Except GenErr (ℕ × ℕ) :=
  if mx ≤ 0 then Except.error GenErr.rangeError
  else
    match computeMask mx with
    | none => Except.error GenErr.outOfFuel
    | some mask => rejectLoop mx mask s pos fuel

/-- The destructuring swap `[arr[i], arr[j]] = [arr[j], arr[i]]` on a list
(indices are always in bounds at every use site; the default is irrelevant). -/
def listSwap (l : List Char) (i j : ℕ) : List Char :=
  (l.set i (l.getD j 'A')).set j (l.getD i 'A')

/-- The loop of `secureShuffle`, by the loop index `i` running from
`arr.length - 1` down to `1`: `j = secureRandInt(i + 1)` then swap. -/
def secureShuffleAux (s : RandStream) (fuel : ℕ) :
    ℕ → List Char → ℕ → Except GenErr (List Char × ℕ)
  | 0, arr, pos => Except.ok (arr, pos)
  | k + 1, arr, pos =>
    match secureRandInt ((k : ℤ) + 2) s pos fuel with
    | Except.error e => Except.error e
    | Except.ok (j, pos1) => secureShuffleAux s fuel k (listSwap arr (k + 1) j) pos1

/-- The shuffle `secureShuffle(arr)`: Fisher-Yates using `secureRandInt`. -/
def secureShuffle (arr : List Char) (s : RandStream) (fuel pos : ℕ) :
    Except GenErr (List Char × ℕ) :=
  secureShuffleAux s fuel (arr.length - 1) arr pos

/-- Identifier of one of the four character pools. -/
inductive PoolKey : Type where
  | upper : PoolKey
  | lower : PoolKey
  | digits : PoolKey
  | symbols : PoolKey
  deriving DecidableEq

/-- A `{ key, chars }` entry of the `activePools` / `filteredPools` arrays. -/
structure Pool : Type where
  key : PoolKey
  chars : List Char
  deriving DecidableEq

def upperChars : List Char := "ABCDEFGHIJKLMNOPQRSTUVWXYZ".toList

def lowerChars : List Char := "abcdefghijklmnopqrstuvwxyz".toList

def digitChars : List Char := "0123456789".toList

def symbolChars : List Char := "!@#$%^&*()-_=+[]\x7b\x7d|;:,.<>?/~".toList

/-- The fixed set `AMBIGUOUS = new Set("0Ol1I|B8S5")`. -/
def AMBIGUOUS : List Char := "0Ol1I|B8S5".toList

/-- The inputs `generatePassword` reads from the DOM controls. -/
structure Config : Type where
  length : ℕ
  useUpper : Bool
  useLower : Bool
  useDigits : Bool
  useSymbols : Bool
  noAmbig : Bool
  guarantee : Bool
  deriving DecidableEq

/-- The `activePools` array, built in the fixed order upper, lower, digits, symbols. -/
def activePools (c : Config) : List Pool :=
  (if c.useUpper then [Pool.mk PoolKey.upper upperChars] else []) ++
    (if c.useLower then [Pool.mk PoolKey.lower lowerChars] else []) ++
      (if c.useDigits then [Pool.mk PoolKey.digits digitChars] else []) ++
        (if c.useSymbols then [Pool.mk PoolKey.symbols symbolChars] else [])

/-- The `.map` step of the ambiguity filter: drop `AMBIGUOUS` members when
`noAmbig` is set, keep the pool untouched otherwise. -/
def filterAmbig (noAmbig : Bool) (p : Pool) : Pool :=
  Pool.mk p.key
    (if noAmbig then p.chars.filter (fun ch => decide (¬ ch ∈ AMBIGUOUS)) else p.chars)

/-- The `filteredPools` array: ambiguity-filtered pools with empty pools dropped. -/
def filteredPoolsOf (c : Config) : List Pool :=
  ((activePools c).map (filterAmbig c.noAmbig)).filter (fun p => decide (0 < p.chars.length))

/-- The combined alphabet: `filteredPools.map((p) => p.chars).join("")`. -/
def alphabetOf (c : Config) : List Char := ((filteredPoolsOf c).map Pool.chars).flatten

/-- The guarantee loop: one uniformly sampled character per (non-empty) pool,
in pool order. -/
def seedChars (s : RandStream) (fuel : ℕ) : List Pool → ℕ → Except GenErr (List Char × ℕ)
  | [], pos => Except.ok ([], pos)
  | p :: rest, pos =>
    if 0 < p.chars.length then
      match secureRandInt ((p.chars.length : ℕ) : ℤ) s pos fuel with
      | Except.error e => Except.error e
      | Except.ok (v, pos1) =>
        match seedChars s fuel rest pos1 with
        | Except.error e => Except.error e
        | Except.ok (l, pos2) => Except.ok (p.chars.getD v 'A' :: l, pos2)
    else
      seedChars s fuel rest pos

/-- The fill loop: `remaining` characters drawn uniformly from the combined
alphabet. -/
def fillChars (alphabet : List Char) (s : RandStream) (fuel : ℕ) :
    ℕ → ℕ → Except GenErr (List Char × ℕ)
  | 0, pos => Except.ok ([], pos)
  | n + 1, pos =>
    match secureRandInt ((alphabet.length : ℕ) : ℤ) s pos fuel with
    | Except.error e => Except.error e
    | Except.ok (v, pos1) =>
      match fillChars alphabet s fuel n pos1 with
      | Except.error e => Except.error e
      | Except.ok (l, pos2) => Except.ok (alphabet.getD v 'A' :: l, pos2)

/-- The guarantee step of `generatePassword`: seed one character per filtered
pool when the flag is set, contribute nothing otherwise. -/
def seedStep (c : Config) (s : RandStream) (fuel pos : ℕ) : Except GenErr (List Char × ℕ) :=
  if c.guarantee then seedChars s fuel (filteredPoolsOf c) pos else Except.ok ([], pos)

/-- The assembler `generatePassword()`: the two failure exits, optional guaranteed seeding,
fill of the remaining `length - chars.length` positions (clamped at zero, as
the JavaScript `for` loop never runs on a negative bound), and the final
shuffle.  Returns the password characters and the advanced stream cursor. -/
def generatePassword (c : Config) (s : RandStream) (fuel pos : ℕ) :
    Except GenErr (List Char × ℕ) :=
  if (activePools c).length = 0 then Except.error GenErr.noPool
  else if (filteredPoolsOf c).length = 0 then Except.error GenErr.emptyAfterFilter
  else
    match seedStep c s fuel pos with
    | Except.error e => Except.error e
    | Except.ok (seeds, pos1) =>
      match fillChars (alphabetOf c) s fuel (c.length - seeds.length) pos1 with
      | Except.error e => Except.error e
      | Except.ok (fill, pos2) => secureShuffle (seeds ++ fill) s fuel pos2

/-- The estimate `calcEntropy(password, alphabetSize) = Math.round(password.length * Math.log2(alphabetSize))`,
as a function of the password length and the alphabet size. -/
noncomputable def calcEntropy (len alphabetSize : ℕ) : ℤ :=
  round ((len : ℝ) * Real.logb 2 (alphabetSize : ℝ))

/-- Stream delivering only zero words: every draw is accepted at once. -/
def zeroStream : RandStream := fun _ => 0

/-- Stream whose first word is odd, all later words zero. -/
def oneThenZeroStream : RandStream := fun n => if n = 0 then 1 else 0

/-- An integer of the all-ones form `2^k - 1`. -/
def isOnes (m : ℤ) : Prop := ∃ k : ℕ, m = 2 ^ k - 1

/-- Predicate: `m` is the smallest all-ones integer that is at least `t`. -/
def isSmallestOnesGE (t m : ℤ) : Prop :=
  isOnes m ∧ t ≤ m ∧ ∀ m2 : ℤ, isOnes m2 → t ≤ m2 → m ≤ m2

lemma rejectLoop_ok (mx mask : ℤ) (s : RandStream) :
    ∀ (fuel pos v pos1 : ℕ), rejectLoop mx mask s pos fuel = Except.ok (v, pos1) →
      (v : ℤ) < mx ∧ pos < pos1 := by
  intro fuel
  induction fuel with
  | zero =>
    intro pos v pos1 h
    exact absurd h (by simp [rejectLoop])
  | succ n ih =>
    intro pos v pos1 h
    simp only [rejectLoop] at h
    by_cases hc : ((s pos % 4294967296 &&& mask.toNat : ℕ) : ℤ) < mx
    · rw [if_pos hc] at h
      simp only [Except.ok.injEq, Prod.mk.injEq] at h
      obtain ⟨hv, hp⟩ := h
      subst hv
      subst hp
      exact ⟨hc, by omega⟩
    · rw [if_neg hc] at h
      obtain ⟨h1, h2⟩ := ih (pos + 1) v pos1 h
      exact ⟨h1, by omega⟩

lemma secureRandInt_ok {mx : ℤ} {s : RandStream} {pos fuel v pos1 : ℕ}
    (h : secureRandInt mx s pos fuel = Except.ok (v, pos1)) : (v : ℤ) < mx ∧ pos < pos1 := by
  unfold secureRandInt at h
  by_cases hmx : mx ≤ 0
  · rw [if_pos hmx] at h
    exact absurd h (by simp)
  · rw [if_neg hmx] at h
    cases hcm : computeMask mx with
    | none => rw [hcm] at h; exact absurd h (by simp)
    | some mask => rw [hcm] at h; exact rejectLoop_ok mx mask s fuel pos v pos1 h

/-- C5: for every max in `[1, 2^31)`, any value `secureRandInt` returns lies in
`[0, max)`: no returned value is negative or `>= max`. -/
theorem secureRandInt_range (mx : ℤ) (s : RandStream) (pos fuel v pos1 : ℕ)
    (h1 : 1 ≤ mx) (h2 : mx < 2147483648)
    (h : secureRandInt mx s pos fuel = Except.ok (v, pos1)) :
    0 ≤ (v : ℤ) ∧ (v : ℤ) < mx :=
  ⟨Int.natCast_nonneg v, (secureRandInt_ok h).1⟩

theorem secureRandInt_range_witness : 0 ≤ ((0 : ℕ) : ℤ) ∧ ((0 : ℕ) : ℤ) < 5 :=
  secureRandInt_range 5 zeroStream 0 1 0 1 (by norm_num) (by norm_num) (by decide)

/-- C8: for every max `<= 0`, `secureRandInt` fails with the `RangeError`,
returning no value; the argument is never clamped. -/
theorem secureRandInt_nonpos (mx : ℤ) (s : RandStream) (pos fuel : ℕ) (h : mx ≤ 0) :
    secureRandInt mx s pos fuel = Except.error GenErr.rangeError := by
  unfold secureRandInt
  rw [if_pos h]

theorem secureRandInt_nonpos_witness :
    secureRandInt (-3) zeroStream 0 1 = Except.error GenErr.rangeError :=
  secureRandInt_nonpos (-3) zeroStream 0 1 (by norm_num)

/-- C7 counterexample: with `max = 1` and a stream whose first word is odd, the
first masked draw equals `1`, which is rejected, so two random words are
consumed — not exactly one regardless of the entropy stream. -/
theorem secureRandInt_one_consumes_two :
    secureRandInt 1 oneThenZeroStream 0 5 = Except.ok (0, 2) ∧ (2 : ℕ) ≠ 0 + 1 := by
  constructor
  · decide
  · decide

/-- C7 amended: `secureRandInt(1)` returns `0` whenever it terminates, and the
loop accepts the first draw exactly when the first word is even (an odd word
gives masked value `1 >= 1` and is redrawn). -/
theorem secureRandInt_one (s : RandStream) (pos fuel : ℕ) :
    (∀ v pos1 : ℕ, secureRandInt 1 s pos fuel = Except.ok (v, pos1) → v = 0) ∧
    (s pos % 2 = 0 → secureRandInt 1 s pos (fuel + 1) = Except.ok (0, pos + 1)) := by
  constructor
  · intro v pos1 h
    have hv := (secureRandInt_ok h).1
    omega
  · intro hev
    unfold secureRandInt
    rw [if_neg (by norm_num)]
    have hcm : computeMask 1 = some 1 := by decide
    rw [hcm]
    simp only [rejectLoop]
    have hval : s pos % 4294967296 &&& (1 : ℤ).toNat = 0 := by
      have h1 : (1 : ℤ).toNat = 1 := rfl
      rw [h1, Nat.and_one_is_mod, Nat.mod_mod_of_dvd _ (by norm_num : (2 : ℕ) ∣ 4294967296), hev]
    rw [hval]
    simp

theorem secureRandInt_one_witness :
    (0 : ℕ) = 0 ∧ secureRandInt 1 zeroStream 0 (0 + 1) = Except.ok (0, 0 + 1) :=
  ⟨(secureRandInt_one zeroStream 0 1).1 0 1 (by decide),
    (secureRandInt_one zeroStream 0 0).2 (by decide)⟩

/-- C6 counterexample: at `max = 2` the code computes mask `3`, yet the
smallest all-ones integer `>= max - 1 = 1` is `1`, so the computed mask is not
the smallest all-ones integer `>= max - 1`. -/
theorem computeMask_not_smallest_ge_pred :
    computeMask 2 = some 3 ∧ ¬ isSmallestOnesGE (2 - 1) 3 := by
  constructor
  · decide
  · intro hsm
    obtain ⟨_, _, hmin⟩ := hsm
    have h3 := hmin 1 ⟨1, by norm_num⟩ (by norm_num)
    linarith

lemma maskLoop_exit (mx : ℤ) (j : ℕ) (hle : mx ≤ 2 ^ j - 1)
    (hinv : ∀ m2 : ℤ, isOnes m2 → m2 < 2 ^ j - 1 → m2 < mx) :
    isSmallestOnesGE mx (2 ^ j - 1) := by
  refine ⟨⟨j, rfl⟩, hle, ?_⟩
  intro m2 ho hge
  by_contra hlt
  push_neg at hlt
  exact absurd hge (not_le.mpr (hinv m2 ho hlt))

lemma maskLoop_spec : ∀ (fuel : ℕ) (mx : ℤ) (j : ℕ), 1 ≤ mx → mx ≤ 2147483647 →
    mx ≤ 2 ^ (j + fuel) - 1 →
    (∀ m2 : ℤ, isOnes m2 → m2 < 2 ^ j - 1 → m2 < mx) →
    ∃ m : ℤ, maskLoop mx (2 ^ j - 1) fuel = some m ∧ isSmallestOnesGE mx m := by
  intro fuel
  induction fuel with
  | zero =>
    intro mx j h1 h2 hle hinv
    rw [Nat.add_zero] at hle
    refine ⟨2 ^ j - 1, ?_, maskLoop_exit mx j hle hinv⟩
    simp only [maskLoop]
    rw [if_neg (not_lt.mpr hle)]
  | succ n ih =>
    intro mx j h1 h2 hle hinv
    by_cases hlt : (2 : ℤ) ^ j - 1 < mx
    · have hj31 : j < 31 := by
        by_contra hj
        push_neg at hj
        have hup : (2 : ℤ) ^ 31 ≤ 2 ^ j := pow_le_pow_right₀ (by norm_num) hj
        have h31 : (2 : ℤ) ^ 31 = 2147483648 := by norm_num
        linarith
      have hpos : (0 : ℤ) < 2 ^ (j + 1) := by positivity
      have hlt31 : (2 : ℤ) ^ (j + 1) ≤ 2 ^ 31 := pow_le_pow_right₀ (by norm_num) (by omega)
      have h31 : (2 : ℤ) ^ 31 = 2147483648 := by norm_num
      have hstep : toInt32 (2 * ((2 : ℤ) ^ j - 1) + 1) = 2 ^ (j + 1) - 1 := by
        have he : 2 * ((2 : ℤ) ^ j - 1) + 1 = 2 ^ (j + 1) - 1 := by rw [pow_succ]; ring
        rw [he, toInt32,
          Int.emod_eq_of_lt (by linarith) (by linarith : (2 : ℤ) ^ (j + 1) - 1 < 4294967296),
          if_pos (by linarith : (2 : ℤ) ^ (j + 1) - 1 < 2147483648)]
      simp only [maskLoop]
      rw [if_pos hlt, hstep]
      apply ih mx (j + 1) h1 h2
      · have hj1 : j + 1 + n = j + (n + 1) := by omega
        rw [hj1]
        exact hle
      · intro m2 ho hm2
        obtain ⟨k, hk⟩ := ho
        have hkj : k ≤ j := by
          by_contra hc
          push_neg at hc
          have h2k : (2 : ℤ) ^ (j + 1) ≤ 2 ^ k := pow_le_pow_right₀ (by norm_num) hc
          rw [hk] at hm2
          linarith
        have hle2 : m2 ≤ 2 ^ j - 1 := by
          have h2k : (2 : ℤ) ^ k ≤ 2 ^ j := pow_le_pow_right₀ (by norm_num) hkj
          rw [hk]
          linarith
        rcases lt_or_eq_of_le hle2 with hlt2 | heq
        · exact hinv m2 ⟨k, hk⟩ hlt2
        · rw [heq]; exact hlt
    · refine ⟨2 ^ j - 1, ?_, maskLoop_exit mx j (not_lt.mp hlt) hinv⟩
      simp only [maskLoop]
      rw [if_neg hlt]

/-- C6 amended: for every `max` in `[1, 2^31)` the computed bitmask is the
smallest integer of the form `2^k - 1` that is greater than or equal to `max`
itself (not `max - 1`). -/
theorem computeMask_correct (mx : ℤ) (h1 : 1 ≤ mx) (h2 : mx ≤ 2147483647) :
    ∃ m : ℤ, computeMask mx = some m ∧ isSmallestOnesGE mx m := by
  have h33 : (2 : ℤ) ^ (1 + 32) - 1 = 8589934591 := by norm_num
  have hle : mx ≤ 2 ^ (1 + 32) - 1 := by rw [h33]; linarith
  have hinv : ∀ m2 : ℤ, isOnes m2 → m2 < 2 ^ 1 - 1 → m2 < mx := by
    intro m2 _ hm2
    have he : (2 : ℤ) ^ 1 - 1 = 1 := by norm_num
    rw [he] at hm2
    linarith
  obtain ⟨m, hm, hsm⟩ := maskLoop_spec 32 mx 1 h1 h2 hle hinv
  refine ⟨m, ?_, hsm⟩
  unfold computeMask
  have he : (2 : ℤ) ^ 1 - 1 = 1 := by norm_num
  rw [← he]
  exact hm

theorem computeMask_correct_witness :
    ∃ m : ℤ, computeMask 5 = some m ∧ isSmallestOnesGE 5 m :=
  computeMask_correct 5 (by norm_num) (by norm_num)

lemma cons_set_perm : ∀ (t : List Char) (m : ℕ), m < t.length → ∀ x : Char,
    (t.getD m 'A' :: t.set m x).Perm (x :: t) := by
  intro t
  induction t with
  | nil =>
    intro m hm
    simp at hm
  | cons y u ih =>
    intro m hm x
    cases m with
    | zero =>
      rw [List.getD_cons_zero, List.set_cons_zero]
      exact List.Perm.swap x y u
    | succ k =>
      have hk : k < u.length := by simpa using hm
      rw [List.getD_cons_succ, List.set_cons_succ]
      have step1 : (u.getD k 'A' :: y :: u.set k x).Perm (y :: u.getD k 'A' :: u.set k x) :=
        List.Perm.swap y (u.getD k 'A') (u.set k x)
      have step2 : (y :: u.getD k 'A' :: u.set k x).Perm (y :: x :: u) :=
        (ih k hk x).cons y
      have step3 : (y :: x :: u).Perm (x :: y :: u) := List.Perm.swap x y u
      exact (step1.trans step2).trans step3

lemma listSwap_perm : ∀ (l : List Char) (i j : ℕ), i < l.length → j < l.length →
    (listSwap l i j).Perm l := by
  intro l
  induction l with
  | nil =>
    intro i j hi
    simp at hi
  | cons x t ih =>
    intro i j hi hj
    cases i with
    | zero =>
      cases j with
      | zero =>
        unfold listSwap
        rw [List.getD_cons_zero, List.set_cons_zero, List.set_cons_zero]
      | succ m =>
        have hm : m < t.length := by simpa using hj
        unfold listSwap
        rw [List.getD_cons_succ, List.getD_cons_zero, List.set_cons_zero, List.set_cons_succ]
        exact cons_set_perm t m hm x
    | succ n =>
      have hn : n < t.length := by simpa using hi
      cases j with
      | zero =>
        unfold listSwap
        rw [List.getD_cons_zero, List.getD_cons_succ, List.set_cons_succ, List.set_cons_zero]
        exact cons_set_perm t n hn x
      | succ m =>
        have hm : m < t.length := by simpa using hj
        unfold listSwap
        rw [List.getD_cons_succ, List.getD_cons_succ, List.set_cons_succ, List.set_cons_succ]
        exact ((ih n m hn hm).cons x)

lemma secureShuffleAux_perm : ∀ (k : ℕ) (s : RandStream) (fuel : ℕ) (arr : List Char)
    (pos : ℕ) (arr2 : List Char) (pos2 : ℕ), (0 < k → k < arr.length) →
    secureShuffleAux s fuel k arr pos = Except.ok (arr2, pos2) → arr2.Perm arr := by
  intro k
  induction k with
  | zero =>
    intro s fuel arr pos arr2 pos2 _ h
    simp only [secureShuffleAux, Except.ok.injEq, Prod.mk.injEq] at h
    rw [h.1]
  | succ n ih =>
    intro s fuel arr pos arr2 pos2 hk h
    have hk1 : n + 1 < arr.length := hk (by omega)
    simp only [secureShuffleAux] at h
    cases hs : secureRandInt ((n : ℤ) + 2) s pos fuel with
    | error e =>
      rw [hs] at h
      exact absurd h (by simp)
    | ok vp =>
      obtain ⟨j, pos1⟩ := vp
      rw [hs] at h
      have hj : (j : ℤ) < (n : ℤ) + 2 := (secureRandInt_ok hs).1
      have hjn : j < arr.length := by omega
      have hswap : (listSwap arr (n + 1) j).Perm arr := listSwap_perm arr (n + 1) j hk1 hjn
      have hlen : (listSwap arr (n + 1) j).length = arr.length := hswap.length_eq
      have hrec := ih s fuel (listSwap arr (n + 1) j) pos1 arr2 pos2 (by omega) h
      exact hrec.trans hswap

lemma secureShuffle_perm {arr : List Char} {s : RandStream} {fuel pos : ℕ}
    {arr2 : List Char} {pos2 : ℕ}
    (h : secureShuffle arr s fuel pos = Except.ok (arr2, pos2)) : arr2.Perm arr := by
  unfold secureShuffle at h
  exact secureShuffleAux_perm (arr.length - 1) s fuel arr pos arr2 pos2 (by omega) h

/-- C10: whenever `secureShuffle` returns, the result holds exactly the same
multiset of characters as the input (it only reorders), and arrays of length
at most one are returned unchanged. -/
theorem secureShuffle_multiset (arr : List Char) (s : RandStream) (fuel pos : ℕ) :
    (arr.length ≤ 1 → secureShuffle arr s fuel pos = Except.ok (arr, pos)) ∧
    (∀ (arr2 : List Char) (pos2 : ℕ),
      secureShuffle arr s fuel pos = Except.ok (arr2, pos2) →
      (arr2 : Multiset Char) = (arr : Multiset Char)) := by
  constructor
  · intro h
    have h0 : arr.length - 1 = 0 := by omega
    unfold secureShuffle
    rw [h0]
    simp only [secureShuffleAux]
  · intro arr2 pos2 h
    exact Multiset.coe_eq_coe.mpr (secureShuffle_perm h)

lemma seedChars_ok : ∀ (pools : List Pool) (s : RandStream) (fuel pos : ℕ)
    (l : List Char) (pos1 : ℕ),
    seedChars s fuel pools pos = Except.ok (l, pos1) →
    (∀ p ∈ pools, 0 < p.chars.length) →
    l.length = pools.length ∧
    (∀ p ∈ pools, ∃ ch, ch ∈ l ∧ ch ∈ p.chars) ∧
    (∀ ch ∈ l, ∃ p, p ∈ pools ∧ ch ∈ p.chars) := by
  intro pools
  induction pools with
  | nil =>
    intro s fuel pos l pos1 h _
    simp only [seedChars, Except.ok.injEq, Prod.mk.injEq] at h
    obtain ⟨h1, _⟩ := h
    subst h1
    simp
  | cons p rest ih =>
    intro s fuel pos l pos1 h hpos
    have hp0 : 0 < p.chars.length := hpos p (by simp)
    simp only [seedChars] at h
    rw [if_pos hp0] at h
    cases hs : secureRandInt ((p.chars.length : ℕ) : ℤ) s pos fuel with
    | error e => rw [hs] at h; exact absurd h (by simp)
    | ok vp =>
      obtain ⟨v, posA⟩ := vp
      rw [hs] at h
      dsimp only at h
      cases hrest : seedChars s fuel rest posA with
      | error e => rw [hrest] at h; exact absurd h (by simp)
      | ok lp =>
        obtain ⟨l2, posB⟩ := lp
        rw [hrest] at h
        dsimp only at h
        simp only [Except.ok.injEq, Prod.mk.injEq] at h
        obtain ⟨hl, _⟩ := h
        subst hl
        have hv : (v : ℤ) < ((p.chars.length : ℕ) : ℤ) := (secureRandInt_ok hs).1
        have hvn : v < p.chars.length := by exact_mod_cast hv
        have hmem : p.chars.getD v 'A' ∈ p.chars := by
          rw [List.getD_eq_getElem p.chars 'A' hvn]
          exact List.getElem_mem hvn
        obtain ⟨ihlen, ihcov, ihorig⟩ :=
          ih s fuel posA l2 posB hrest (fun q hq => hpos q (List.mem_cons_of_mem p hq))
        refine ⟨by simp [ihlen], ?_, ?_⟩
        · intro q hq
          rcases List.mem_cons.mp hq with hqp | hqr
          · exact ⟨p.chars.getD v 'A', List.mem_cons_self _ _, by rw [hqp]; exact hmem⟩
          · obtain ⟨ch, hchl, hchq⟩ := ihcov q hqr
            exact ⟨ch, List.mem_cons_of_mem _ hchl, hchq⟩
        · intro ch hch
          rcases List.mem_cons.mp hch with hh | ht
          · exact ⟨p, List.mem_cons_self _ _, by rw [hh]; exact hmem⟩
          · obtain ⟨q, hqr, hchq⟩ := ihorig ch ht
            exact ⟨q, List.mem_cons_of_mem _ hqr, hchq⟩

lemma fillChars_ok : ∀ (n : ℕ) (alphabet : List Char) (s : RandStream) (fuel pos : ℕ)
    (l : List Char) (pos1 : ℕ),
    fillChars alphabet s fuel n pos = Except.ok (l, pos1) →
    l.length = n ∧ ∀ ch ∈ l, ch ∈ alphabet := by
  intro n
  induction n with
  | zero =>
    intro alphabet s fuel pos l pos1 h
    simp only [fillChars, Except.ok.injEq, Prod.mk.injEq] at h
    obtain ⟨h1, _⟩ := h
    subst h1
    simp
  | succ m ih =>
    intro alphabet s fuel pos l pos1 h
    simp only [fillChars] at h
    cases hs : secureRandInt ((alphabet.length : ℕ) : ℤ) s pos fuel with
    | error e => rw [hs] at h; exact absurd h (by simp)
    | ok vp =>
      obtain ⟨v, posA⟩ := vp
      rw [hs] at h
      dsimp only at h
      cases hrest : fillChars alphabet s fuel m posA with
      | error e => rw [hrest] at h; exact absurd h (by simp)
      | ok lp =>
        obtain ⟨l2, posB⟩ := lp
        rw [hrest] at h
        dsimp only at h
        simp only [Except.ok.injEq, Prod.mk.injEq] at h
        obtain ⟨hl, _⟩ := h
        subst hl
        have hv : (v : ℤ) < ((alphabet.length : ℕ) : ℤ) := (secureRandInt_ok hs).1
        have hvn : v < alphabet.length := by exact_mod_cast hv
        have hmem : alphabet.getD v 'A' ∈ alphabet := by
          rw [List.getD_eq_getElem alphabet 'A' hvn]
          exact List.getElem_mem hvn
        obtain ⟨ihlen, ihmem⟩ := ih alphabet s fuel posA l2 posB hrest
        refine ⟨by simp [ihlen], ?_⟩
        intro ch hch
        rcases List.mem_cons.mp hch with hh | ht
        · rw [hh]; exact hmem
        · exact ihmem ch ht

lemma filteredPools_pos (c : Config) : ∀ p ∈ filteredPoolsOf c, 0 < p.chars.length := by
  intro p hp
  unfold filteredPoolsOf at hp
  exact of_decide_eq_true (List.mem_filter.mp hp).2

lemma generate_ok_inv {c : Config} {s : RandStream} {fuel pos : ℕ} {pw : List Char} {p1 : ℕ}
    (h : generatePassword c s fuel pos = Except.ok (pw, p1)) :
    ∃ (seeds fill : List Char) (pos1 pos2 : ℕ),
      ((c.guarantee = true ∧
          seedChars s fuel (filteredPoolsOf c) pos = Except.ok (seeds, pos1)) ∨
        (c.guarantee = false ∧ seeds = [] ∧ pos1 = pos)) ∧
      fillChars (alphabetOf c) s fuel (c.length - seeds.length) pos1 = Except.ok (fill, pos2) ∧
      secureShuffle (seeds ++ fill) s fuel pos2 = Except.ok (pw, p1) := by
  unfold generatePassword at h
  by_cases h1 : (activePools c).length = 0
  · rw [if_pos h1] at h
    exact absurd h (by simp)
  rw [if_neg h1] at h
  by_cases h2 : (filteredPoolsOf c).length = 0
  · rw [if_pos h2] at h
    exact absurd h (by simp)
  rw [if_neg h2] at h
  cases hseed : seedStep c s fuel pos with
  | error e => rw [hseed] at h; exact absurd h (by simp)
  | ok sp =>
    obtain ⟨seeds, posA⟩ := sp
    rw [hseed] at h
    dsimp only at h
    have hOr : (c.guarantee = true ∧
        seedChars s fuel (filteredPoolsOf c) pos = Except.ok (seeds, posA)) ∨
        (c.guarantee = false ∧ seeds = [] ∧ posA = pos) := by
      unfold seedStep at hseed
      by_cases hg : c.guarantee = true
      · rw [if_pos hg] at hseed
        exact Or.inl ⟨hg, hseed⟩
      · rw [if_neg hg] at hseed
        simp only [Except.ok.injEq, Prod.mk.injEq] at hseed
        have hgf : c.guarantee = false := by
          revert hg
          cases c.guarantee <;> simp
        exact Or.inr ⟨hgf, hseed.1.symm, hseed.2.symm⟩
    cases hfill : fillChars (alphabetOf c) s fuel (c.length - seeds.length) posA with
    | error e => rw [hfill] at h; exact absurd h (by simp)
    | ok fp =>
      obtain ⟨fill, posB⟩ := fp
      rw [hfill] at h
      dsimp only at h
      exact ⟨seeds, fill, posA, posB, hOr, hfill, h⟩

/-- C1: for every valid configuration (at least one pool enabled, at least one
pool non-empty after filtering — both implied by a non-error return — and,
when `guarantee` is set, length at least the number of filtered pools), the
generated password has exactly `length` characters. -/
theorem generate_length (c : Config) (s : RandStream) (fuel pos : ℕ)
    (pw : List Char) (p1 : ℕ)
    (hg : c.guarantee = true → (filteredPoolsOf c).length ≤ c.length)
    (h : generatePassword c s fuel pos = Except.ok (pw, p1)) :
    pw.length = c.length := by
  obtain ⟨seeds, fill, pos1, pos2, hseed, hfill, hshuf⟩ := generate_ok_inv h
  have hfl := (fillChars_ok (c.length - seeds.length) (alphabetOf c) s fuel pos1 fill pos2
    hfill).1
  have hperm := secureShuffle_perm hshuf
  have hlen : pw.length = seeds.length + fill.length := by
    rw [hperm.length_eq, List.length_append]
  rcases hseed with ⟨hgt, hsc⟩ | ⟨_, hnil, _⟩
  · have hsl := (seedChars_ok (filteredPoolsOf c) s fuel pos seeds pos1 hsc
      (filteredPools_pos c)).1
    have hb := hg hgt
    omega
  · have hs0 : seeds.length = 0 := by rw [hnil]; rfl
    omega

theorem generate_length_witness : (['a', 'A', 'A'] : List Char).length = 3 :=
  generate_length (Config.mk 3 true true false false false true) zeroStream 1 0
    ['a', 'A', 'A'] 5 (by decide) (by decide)

/-- C2: when `guarantee` is set (and the length accommodates the filtered
pools), the generated password contains at least one character from every
enabled post-filter pool. -/
theorem generate_guarantee_coverage (c : Config) (s : RandStream) (fuel pos : ℕ)
    (pw : List Char) (p1 : ℕ)
    (hgt : c.guarantee = true)
    (hlen : (filteredPoolsOf c).length ≤ c.length)
    (h : generatePassword c s fuel pos = Except.ok (pw, p1)) :
    ∀ p ∈ filteredPoolsOf c, ∃ ch, ch ∈ pw ∧ ch ∈ p.chars := by
  obtain ⟨seeds, fill, pos1, pos2, hseed, hfill, hshuf⟩ := generate_ok_inv h
  rcases hseed with ⟨_, hsc⟩ | ⟨hgf, _, _⟩
  · have hcov := (seedChars_ok (filteredPoolsOf c) s fuel pos seeds pos1 hsc
      (filteredPools_pos c)).2.1
    intro p hp
    obtain ⟨ch, hchs, hchp⟩ := hcov p hp
    have hperm := secureShuffle_perm hshuf
    refine ⟨ch, ?_, hchp⟩
    rw [hperm.mem_iff]
    exact List.mem_append_left fill hchs
  · rw [hgt] at hgf
    exact absurd hgf (by simp)

theorem generate_guarantee_coverage_witness :
    ∃ ch, ch ∈ (['a', 'A', 'A'] : List Char) ∧
      ch ∈ (filterAmbig false (Pool.mk PoolKey.upper upperChars)).chars :=
  generate_guarantee_coverage (Config.mk 3 true true false false false true) zeroStream 1 0
    ['a', 'A', 'A'] 5 (by decide) (by decide) (by decide)
    (filterAmbig false (Pool.mk PoolKey.upper upperChars)) (by decide)

/-- C3: when `excludeAmbiguous` is set, every filtered pool and the combined
alphabet contain no ambiguous character, and the generated password contains
no ambiguous character. -/
theorem generate_no_ambiguous (c : Config) (s : RandStream) (fuel pos : ℕ)
    (pw : List Char) (p1 : ℕ) (hna : c.noAmbig = true) :
    (∀ p ∈ filteredPoolsOf c, ∀ ch ∈ p.chars, ch ∉ AMBIGUOUS) ∧
    (∀ ch ∈ alphabetOf c, ch ∉ AMBIGUOUS) ∧
    (generatePassword c s fuel pos = Except.ok (pw, p1) → ∀ ch ∈ pw, ch ∉ AMBIGUOUS) := by
  have hpools : ∀ p ∈ filteredPoolsOf c, ∀ ch ∈ p.chars, ch ∉ AMBIGUOUS := by
    intro p hp ch hch
    unfold filteredPoolsOf at hp
    have hp1 := (List.mem_filter.mp hp).1
    obtain ⟨q, _, hpq⟩ := List.mem_map.mp hp1
    rw [← hpq] at hch
    unfold filterAmbig at hch
    rw [hna] at hch
    rw [if_pos rfl] at hch
    exact of_decide_eq_true (List.mem_filter.mp hch).2
  have halpha : ∀ ch ∈ alphabetOf c, ch ∉ AMBIGUOUS := by
    intro ch hch
    unfold alphabetOf at hch
    obtain ⟨l, hl, hchl⟩ := List.mem_flatten.mp hch
    obtain ⟨p, hp, hpl⟩ := List.mem_map.mp hl
    rw [← hpl] at hchl
    exact hpools p hp ch hchl
  refine ⟨hpools, halpha, ?_⟩
  intro h ch hch
  obtain ⟨seeds, fill, pos1, pos2, hseed, hfill, hshuf⟩ := generate_ok_inv h
  have hperm := secureShuffle_perm hshuf
  have hch2 : ch ∈ seeds ++ fill := hperm.mem_iff.mp hch
  rcases List.mem_append.mp hch2 with hsm | hfm
  · rcases hseed with ⟨_, hsc⟩ | ⟨_, hnil, _⟩
    · have horig := (seedChars_ok (filteredPoolsOf c) s fuel pos seeds pos1 hsc
        (filteredPools_pos c)).2.2
      obtain ⟨p, hp, hchp⟩ := horig ch hsm
      exact hpools p hp ch hchp
    · rw [hnil] at hsm
      exact absurd hsm (by simp)
  · have hmem := (fillChars_ok (c.length - seeds.length) (alphabetOf c) s fuel pos1 fill pos2
      hfill).2
    exact halpha ch (hmem ch hfm)

theorem generate_no_ambiguous_witness :
    (∀ p ∈ filteredPoolsOf (Config.mk 3 true true false false true true),
      ∀ ch ∈ p.chars, ch ∉ AMBIGUOUS) ∧
    (∀ ch ∈ alphabetOf (Config.mk 3 true true false false true true), ch ∉ AMBIGUOUS) ∧
    (generatePassword (Config.mk 3 true true false false true true) zeroStream 1 0 =
        Except.ok (['a', 'A', 'A'], 5) →
      ∀ ch ∈ (['a', 'A', 'A'] : List Char), ch ∉ AMBIGUOUS) :=
  generate_no_ambiguous (Config.mk 3 true true false false true true) zeroStream 1 0
    ['a', 'A', 'A'] 5 (by decide)

/-- C4: code evidence — with `guarantee` set and requested length `1` smaller
than the `2` enabled pools, the code does not reject the configuration: it
returns success with a password of length `2`, different from the requested
length `1`. -/
theorem generate_mismatch_not_rejected :
    generatePassword (Config.mk 1 true true false false false true) zeroStream 1 0 =
      Except.ok (['a', 'A'], 3) ∧
    (['a', 'A'] : List Char).length = 2 ∧
    (Config.mk 1 true true false false false true).length = 1 :=
  ⟨by decide, by decide, rfl⟩

theorem secureShuffle_multiset_witness :
    secureShuffle ['a'] zeroStream 1 0 = Except.ok (['a'], 0) ∧
    ((['b', 'c', 'a'] : List Char) : Multiset Char) =
      ((['a', 'b', 'c'] : List Char) : Multiset Char) :=
  ⟨(secureShuffle_multiset ['a'] zeroStream 1 0).1 (by decide),
    (secureShuffle_multiset ['a', 'b', 'c'] zeroStream 1 0).2 ['b', 'c', 'a'] 2 (by decide)⟩

lemma div_le_logb_two (a b N : ℕ) (hb : 0 < b) (hN : 0 < N)
    (h : (2 : ℕ) ^ a ≤ N ^ b) : ((a : ℝ) / (b : ℝ)) ≤ Real.logb 2 (N : ℝ) := by
  have hNr : (0 : ℝ) < (N : ℝ) := by exact_mod_cast hN
  rw [Real.le_logb_iff_rpow_le (by norm_num) hNr]
  have hbne : ((b : ℕ) : ℝ) ≠ 0 := by
    simp only [ne_eq, Nat.cast_eq_zero]
    omega
  have hkey : ((2 : ℝ) ^ ((a : ℝ) / (b : ℝ))) ^ (b : ℕ) ≤ ((N : ℝ)) ^ (b : ℕ) := by
    rw [← Real.rpow_natCast ((2 : ℝ) ^ ((a : ℝ) / (b : ℝ))) b, ← Real.rpow_mul (by norm_num),
      div_mul_cancel₀ _ hbne, Real.rpow_natCast]
    exact_mod_cast h
  exact le_of_pow_le_pow_left₀ (by omega) (le_of_lt hNr) hkey

lemma logb_two_lt_div (a b N : ℕ) (hb : 0 < b) (hN : 0 < N)
    (h : N ^ b < (2 : ℕ) ^ a) : Real.logb 2 (N : ℝ) < ((a : ℝ) / (b : ℝ)) := by
  have hNr : (0 : ℝ) < (N : ℝ) := by exact_mod_cast hN
  rw [Real.logb_lt_iff_lt_rpow (by norm_num) hNr]
  have hbne : ((b : ℕ) : ℝ) ≠ 0 := by
    simp only [ne_eq, Nat.cast_eq_zero]
    omega
  have hkey : ((N : ℝ)) ^ (b : ℕ) < ((2 : ℝ) ^ ((a : ℝ) / (b : ℝ))) ^ (b : ℕ) := by
    rw [← Real.rpow_natCast ((2 : ℝ) ^ ((a : ℝ) / (b : ℝ))) b, ← Real.rpow_mul (by norm_num),
      div_mul_cancel₀ _ hbne, Real.rpow_natCast]
    exact_mod_cast h
  exact lt_of_pow_lt_pow_left₀ b (by positivity) hkey

lemma round_mul_logb (L N : ℕ) (r : ℤ) (a1 a2 b : ℕ) (hb : 0 < b) (hN : 0 < N)
    (hL : 0 < L)
    (hlo : (2 : ℕ) ^ a1 ≤ N ^ b) (hhi : N ^ b < (2 : ℕ) ^ a2)
    (h1 : ((r : ℝ) - 1 / 2) * b ≤ (L : ℝ) * a1)
    (h2 : (L : ℝ) * a2 ≤ ((r : ℝ) + 1 / 2) * b) :
    calcEntropy L N = r := by
  have hbr : (0 : ℝ) < (b : ℝ) := by exact_mod_cast hb
  have hLr : (0 : ℝ) < (L : ℝ) := by exact_mod_cast hL
  have hlow := div_le_logb_two a1 b N hb hN hlo
  have hup := logb_two_lt_div a2 b N hb hN hhi
  have hxlo : (r : ℝ) - 1 / 2 ≤ (L : ℝ) * Real.logb 2 (N : ℝ) := by
    have hm : (L : ℝ) * ((a1 : ℝ) / (b : ℝ)) ≤ (L : ℝ) * Real.logb 2 (N : ℝ) :=
      mul_le_mul_of_nonneg_left hlow (le_of_lt hLr)
    have hd : (r : ℝ) - 1 / 2 ≤ (L : ℝ) * ((a1 : ℝ) / (b : ℝ)) := by
      rw [← mul_div_assoc, le_div_iff₀ hbr]
      linarith
    linarith
  have hxhi : (L : ℝ) * Real.logb 2 (N : ℝ) < (r : ℝ) + 1 / 2 := by
    have hm : (L : ℝ) * Real.logb 2 (N : ℝ) < (L : ℝ) * ((a2 : ℝ) / (b : ℝ)) :=
      mul_lt_mul_of_pos_left hup hLr
    have hd : (L : ℝ) * ((a2 : ℝ) / (b : ℝ)) ≤ (r : ℝ) + 1 / 2 := by
      rw [← mul_div_assoc, div_le_iff₀ hbr]
      linarith
    linarith
  unfold calcEntropy
  rw [round_eq, Int.floor_eq_iff]
  constructor
  · linarith
  · linarith

lemma calcEntropy_20_91 : calcEntropy 20 91 = 130 :=
  round_mul_logb 20 91 130 259 261 40 (by norm_num) (by norm_num) (by norm_num)
    (by norm_num) (by norm_num) (by norm_num) (by norm_num)

lemma calcEntropy_12_26 : calcEntropy 12 26 = 56 :=
  round_mul_logb 12 26 56 111 113 24 (by norm_num) (by norm_num) (by norm_num)
    (by norm_num) (by norm_num) (by norm_num) (by norm_num)

lemma calcEntropy_12_91 : calcEntropy 12 91 = 78 :=
  round_mul_logb 12 91 78 155 157 24 (by norm_num) (by norm_num) (by norm_num)
    (by norm_num) (by norm_num) (by norm_num) (by norm_num)

/-- C9 counterexample: the code computes `calcEntropy 20 91 = 130`, not the
claimed `131`, and `calcEntropy 12 91 = 78`, not the claimed `79`. -/
theorem calcEntropy_examples_off_by_one :
    calcEntropy 20 91 ≠ 131 ∧ calcEntropy 12 91 ≠ 79 := by
  constructor
  · rw [calcEntropy_20_91]
    decide
  · rw [calcEntropy_12_91]
    decide

/-- C9 amended: the entropy estimate is `round(length * log2(alphabetSize))`,
and the example values are `calcEntropy 20 91 = 130`, `calcEntropy 12 26 = 56`
and `calcEntropy 12 91 = 78`. -/
theorem calcEntropy_values :
    calcEntropy 20 91 = 130 ∧ calcEntropy 12 26 = 56 ∧ calcEntropy 12 91 = 78 :=
  ⟨calcEntropy_20_91, calcEntropy_12_26, calcEntropy_12_91⟩

end PassGen
